import Mathlib

/-!
Shallow embedding of the adaptive scheduling core of `hsk-vocab.py`
(progress store, weighted selector, outcome processor, answer checking).

Python floats carry exact decimal constants here and all arithmetic in the
claims stays within exactly representable values, so they are modelled as
rationals (ℚ); `int` counters are ℕ. File and terminal I/O is external to
the core: functions receive the parsed data / user input as arguments and
return the values the source computes.
-/

/-! ### Constants (hsk-vocab.py lines 15-22) -/

def PENALTY_HINT : ℚ := 1.5
def PENALTY_SKIP : ℚ := 3.0
def PENALTY_INCORRECT : ℚ := 4.0
def REWARD_STREAK : ℚ := 0.25
def REWARD_TIME : ℚ := 0.5
def REWARD_CORRECT : ℚ := 1.0
def MAX_WEIGHT : ℚ := 10.0
def MIN_WEIGHT : ℚ := 0.01

/-! ### Data model -/

/-- One per-word progress record, exactly the dict produced by
`get_default_progress` / mutated by `run_quiz_for_item`. -/
structure PRecord where
  word : String
  weight : ℚ
  streak : ℕ
  attempts : ℕ
  correct : ℕ
  total_time : ℚ
  avg_time : ℚ
deriving DecidableEq

/-- The `pinyin` JSON field is polymorphic in the source data: absent, a
single string, or a list of romanization variants. -/
inductive PinyinField
  | missing
  | str (s : String)
  | list (l : List String)
deriving DecidableEq

/-- A vocabulary item, restricted to the fields the scheduling core reads
(`simplified` for the merge key and answers, `pinyin` and
`english_concise` for answers). Display-only fields are omitted.
`Option` models a possibly missing JSON key, read with `.get(k, default)`. -/
structure VocabItem where
  simplified : Option String
  pinyin : PinyinField
  english_concise : Option String
deriving DecidableEq

/-- Python `str.lower()` (ASCII-sufficient for the answer strings involved). -/
def lowerStr (s : String) : String := ⟨s.data.map Char.toLower⟩

/-- Python `str.replace(" ", "")`: drop every space character. -/
def removeSpaces (s : String) : String := ⟨s.data.filter (fun c => c ≠ ' ')⟩

/-! ### Progress store (`get_default_progress`, `load_progress`, `save_progress`) -/

/-- The default entry built for a word in `get_default_progress` and in the
merge loop of `load_progress` (lines 196-204 and 232-240). -/
def default_record (word : String) : PRecord :=
  { word := word, weight := MAX_WEIGHT, streak := 0, attempts := 0,
    correct := 0, total_time := 0, avg_time := 0 }

/-- `get_default_progress` (lines 194-204). -/
def get_default_progress (data : List VocabItem) : List PRecord :=
  data.map (fun w => default_record (w.simplified.getD "N/A"))

/-- The dict built by `{item['word']: item for item in old_prog}` followed by
lookup: a left fold in which a later record with the same word overwrites an
earlier one, exactly Python dict-comprehension semantics. -/
def dictLookup (old_prog : List PRecord) (k : String) : Option PRecord :=
  old_prog.foldl (fun acc r => if r.word = k then some r else acc) none

/-- `load_progress` (lines 207-246). `prior = none` models both a missing
progress file (`os.path.exists` false) and an unparseable one
(`json.JSONDecodeError` / `IOError`), which the source treats identically by
returning `get_default_progress data`. A parsed store is a record list. -/
def load_progress (data : List VocabItem) (prior : Option (List PRecord)) :
    List PRecord :=
  match prior with
  | none => get_default_progress data
  | some old_prog =>
    data.map (fun w =>
      let word_char := w.simplified.getD "N/A"
      match dictLookup old_prog word_char with
      | some r => r
      | none => default_record word_char)

/-- `save_progress` (lines 249-257) serializes the record list with
`json.dump(..., ensure_ascii=False)`; re-parsing that JSON yields the same
list of records, so the persisted-then-parsed store is the list itself. -/
def save_progress (progress_data : List PRecord) : Option (List PRecord) :=
  some progress_data

/-! ### Outcome processor (the record updates inside `run_quiz_for_item`) -/

/-- The `-h` branch weight penalty (line 393). -/
def applyHint (r : PRecord) : PRecord :=
  { r with weight := min MAX_WEIGHT (r.weight + PENALTY_HINT) }

/-- The `-s` branch (lines 384-390): weight penalty, streak reset,
`attempts += 1`, then immediate return — `total_time` and `avg_time` are not
touched on this path. -/
def applySkip (r : PRecord) : PRecord :=
  { r with weight := min MAX_WEIGHT (r.weight + PENALTY_SKIP), streak := 0,
           attempts := r.attempts + 1 }

/-- The answer-grading tail of `run_quiz_for_item` (lines 400-425):
`attempts += 1`, `total_time += elapsed`, then the correct/incorrect update,
then `avg_time = total_time / attempts`. The time-bonus test reads the
pre-update `avg_time`; the reward reads the post-increment streak. -/
def applyAnswer (isCorrect : Bool) (elapsed : ℚ) (r : PRecord) : PRecord :=
  let attempts' := r.attempts + 1
  let total' := r.total_time + elapsed
  let avg' := total' / (attempts' : ℚ)
  if isCorrect then
    let streak' := r.streak + 1
    let reward := REWARD_CORRECT + REWARD_STREAK * (streak' : ℚ)
    let reward' :=
      if 0 < r.avg_time ∧ elapsed < r.avg_time then reward + REWARD_TIME
      else reward
    { word := r.word, weight := max MIN_WEIGHT (r.weight - reward'),
      streak := streak', attempts := attempts', correct := r.correct + 1,
      total_time := total', avg_time := avg' }
  else
    { word := r.word, weight := min MAX_WEIGHT (r.weight + PENALTY_INCORRECT),
      streak := 0, attempts := attempts', correct := r.correct,
      total_time := total', avg_time := avg' }

/-- A turn's terminal outcome, with the elapsed seconds the source measured
for the turn. `answered` records whether a hint sub-step preceded the final
answer and whether the answer checked as correct. -/
inductive Outcome
  | quit
  | skipped (elapsed : ℚ)
  | answered (hinted : Bool) (isCorrect : Bool) (elapsed : ℚ)
deriving DecidableEq

def Outcome.isSkip : Outcome → Bool
  | .skipped _ => true
  | _ => false

/-- The full effect of one turn of `run_quiz_for_item` on the item's record:
`-q` returns before any mutation; `-s` runs `applySkip` (discarding the
measured time); an answered turn applies the hint penalty first when a hint
was taken, then grades. -/
def applyOutcome (r : PRecord) : Outcome → PRecord
  | .quit => r
  | .skipped _ => applySkip r
  | .answered hinted isCorrect e =>
      applyAnswer isCorrect e (if hinted then applyHint r else r)

def applyOutcomes (r : PRecord) (os : List Outcome) : PRecord :=
  os.foldl applyOutcome r

/-! ### Answer extraction and checking -/

/-- Python list-membership / substring test on strings needs a substring
check on character lists: `startsWithChars n h` is Python's
`h.startswith(n)` shape used below. -/
def startsWithChars : List Char → List Char → Bool
  | [], _ => true
  | _ :: _, [] => false
  | a :: as, b :: bs => a == b && startsWithChars as bs

/-- Python `needle in hay` for strings: contiguous substring containment. -/
def substrOf (needle : List Char) : List Char → Bool
  | [] => startsWithChars needle []
  | b :: bs => startsWithChars needle (b :: bs) || substrOf needle bs

/-- The pinyin element appended to the answer list in `get_quiz_item_data`
(lines 294-297): the second list entry when `pinyin` is a list of more than
one entry, else `item.get('pinyin', '')`, both space-stripped and lowered.
A list of at most one entry reaches `.replace` on a list and raises
(`AttributeError`), modelled as `none`. -/
def pinyinAnswer : PinyinField → Option String
  | .list l =>
      if h : 1 < l.length then some (lowerStr (removeSpaces (l.get ⟨1, h⟩)))
      else none
  | .str s => some (lowerStr (removeSpaces s))
  | .missing => some (lowerStr (removeSpaces ""))

/-- The accepted-answer list built by `get_quiz_item_data` (lines 281-307);
the prompt and hint strings are display-only and omitted. In the
Chinese-to-English direction the answers are the lowered simplified form and
the pinyin form; in the English-to-Chinese direction the single answer is
the lowered concise translation. -/
def quizAnswers (c2e : Bool) (item : VocabItem) : Option (List String) :=
  if c2e then
    (pinyinAnswer item.pinyin).map
      (fun p => [lowerStr (item.simplified.getD ""), p])
  else
    some [lowerStr (item.english_concise.getD "N/A")]

/-- `check_answer` (lines 325-333): exact membership in the answer list when
`g_chinese_to_english`, else Python `user_input in answer_list[0]`
(substring containment in the first — and only — answer). Call sites always
pass a nonempty list, so `answer_list[0]` is its head. -/
def check_answer (c2e : Bool) (user_input : String) (answer_list : List String) :
    Bool :=
  if c2e then answer_list.contains user_input
  else substrOf user_input.data (answer_list.headD "").data

/-! ### The per-turn control flow of `run_quiz_for_item` -/

inductive TurnResult
  | correct
  | incorrect
  | skipped
  | quit
deriving DecidableEq

/-- Lines 404-425: grade an input against the answer list and update. -/
def gradeAnswer (c2e : Bool) (answer : List String) (inpt : String)
    (elapsed : ℚ) (r : PRecord) : TurnResult × PRecord :=
  if check_answer c2e inpt answer then
    (TurnResult.correct, applyAnswer true elapsed r)
  else
    (TurnResult.incorrect, applyAnswer false elapsed r)

/-- `run_quiz_for_item` (lines 359-430) as a function of the two (stripped,
lowered) user inputs and the two measured elapsed times: the command strings
`-q` / `-s` / `-h` are tested against the first input only; after a hint the
second input goes straight to grading and the elapsed times accumulate.
`none` models the `AttributeError` raised while building the answer list. -/
def run_quiz_turn (c2e : Bool) (item : VocabItem) (i1 i2 : String)
    (r : PRecord) (e1 e2 : ℚ) : Option (TurnResult × PRecord) :=
  (quizAnswers c2e item).map (fun answer =>
    if i1 = "-q" then (TurnResult.quit, r)
    else if i1 = "-s" then (TurnResult.skipped, applySkip r)
    else if i1 = "-h" then gradeAnswer c2e answer i2 (e1 + e2) (applyHint r)
    else gradeAnswer c2e answer i1 e1 r)

/-! ### Weighted selector (`get_next_index`, lines 264-278) -/

/-- The exceptions the selection path can raise. -/
inductive SelectError
  | emptyCorpus
  | weightMismatch
  | zeroModulus
deriving DecidableEq

/-- `random.choices(range(n), weights=weights, k=1)[0]`, with the draw made
explicit as a rational `r`: CPython builds the cumulative weights, raises
`ValueError` when their count differs from the population size, raises on
`cum_weights[-1]` when the population is empty (the `EmptyCorpus`
condition), and otherwise bisects the cumulative list at the draw, capping
at `n - 1`. -/
def choicesIdx (n : ℕ) (weights : List ℚ) (r : ℚ) : Except SelectError ℕ :=
  let cum := (weights.scanl (fun a b => a + b) 0).tail
  if cum.length ≠ n then .error .weightMismatch
  else if n = 0 then .error .emptyCorpus
  else .ok (min (cum.takeWhile (fun c => c ≤ r)).length (n - 1))

/-- `get_next_index` (lines 264-278): weighted-random draw over the current
weights, or the sequential cursor with wrap-around. `(cursor + 1) % 0`
raises `ZeroDivisionError` in Python, modelled as an error. Returns the
selected index together with the new cursor. -/
def get_next_index (data_len : ℕ) (progress : List PRecord)
    (randomMode : Bool) (cursor : ℕ) (r : ℚ) :
    Except SelectError (ℕ × ℕ) :=
  if randomMode then
    (choicesIdx data_len (progress.map (fun p => p.weight)) r).map
      (fun i => (i, cursor))
  else if data_len = 0 then .error .zeroModulus
  else .ok (cursor, (cursor + 1) % data_len)

/-! ### Field lemmas for the outcome processor -/

lemma applyHint_weight (r : PRecord) :
    (applyHint r).weight = min MAX_WEIGHT (r.weight + PENALTY_HINT) := rfl

lemma applySkip_weight (r : PRecord) :
    (applySkip r).weight = min MAX_WEIGHT (r.weight + PENALTY_SKIP) := rfl

lemma applyAnswer_weight_false (e : ℚ) (r : PRecord) :
    (applyAnswer false e r).weight =
      min MAX_WEIGHT (r.weight + PENALTY_INCORRECT) := rfl

lemma applyAnswer_weight_true (e : ℚ) (r : PRecord) :
    (applyAnswer true e r).weight =
      max MIN_WEIGHT (r.weight -
        (if 0 < r.avg_time ∧ e < r.avg_time then
          REWARD_CORRECT + REWARD_STREAK * ((r.streak + 1 : ℕ) : ℚ) + REWARD_TIME
        else
          REWARD_CORRECT + REWARD_STREAK * ((r.streak + 1 : ℕ) : ℚ))) := rfl

/-! ### C1 -/

/-- C1 (counterexample): the claim predicts that a skip with elapsed 1.5 on
`{weight=5, streak=3, attempts=0, total_time=0, avg_time=0}` adds 1.5 to
`total_time` and recomputes `avg_time = 1.5`; the code's `-s` branch returns
before the time-stats update, leaving `total_time = 0`. -/
theorem skipped_update_cex :
    applyOutcome ⟨"", 5, 3, 0, 0, 0, 0⟩ (Outcome.skipped (3/2)) ≠
      ⟨"", 8, 0, 1, 0, 3/2, 3/2⟩ ∧
    applyOutcome ⟨"", 5, 3, 0, 0, 0, 0⟩ (Outcome.skipped (3/2)) =
      ⟨"", 8, 0, 1, 0, 0, 0⟩ := by
  constructor <;>
    norm_num [applyOutcome, applySkip, PENALTY_SKIP, MAX_WEIGHT, min_def,
      PRecord.mk.injEq]

/-- C1 (amended): applying the Skipped outcome sets weight to
`min(MAX_WEIGHT, weight + PENALTY_SKIP)`, resets streak to 0, increments
attempts by 1, and leaves correct, `total_time` and `avg_time` unchanged
(the elapsed time is discarded); from `{weight=5, streak=3}` a skip yields
`weight=8`, `streak=0`, `attempts` incremented. -/
theorem skipped_update (r : PRecord) (e : ℚ) :
    applyOutcome r (Outcome.skipped e) =
      { word := r.word, weight := min MAX_WEIGHT (r.weight + PENALTY_SKIP),
        streak := 0, attempts := r.attempts + 1, correct := r.correct,
        total_time := r.total_time, avg_time := r.avg_time } ∧
    applyOutcome ⟨"", 5, 3, 0, 0, 0, 0⟩ (Outcome.skipped (3/2)) =
      ⟨"", 8, 0, 1, 0, 0, 0⟩ := by
  refine ⟨rfl, ?_⟩
  norm_num [applyOutcome, applySkip, PENALTY_SKIP, MAX_WEIGHT, min_def]

/-! ### C2 -/

/-- C2 (counterexample): starting from a default record, a Correct outcome
(elapsed 2) followed by a Skipped outcome leaves `attempts = 2`,
`total_time = 2`, but `avg_time = 2 ≠ 2 / 2`, because the skip branch
increments `attempts` without updating the time statistics. -/
theorem avg_time_invariant_cex :
    0 < (applyOutcomes (default_record "")
          [Outcome.answered false true 2, Outcome.skipped (3/2)]).attempts ∧
    (applyOutcomes (default_record "")
        [Outcome.answered false true 2, Outcome.skipped (3/2)]).avg_time ≠
      (applyOutcomes (default_record "")
          [Outcome.answered false true 2, Outcome.skipped (3/2)]).total_time /
        ((applyOutcomes (default_record "")
            [Outcome.answered false true 2, Outcome.skipped (3/2)]).attempts : ℚ) := by
  norm_num [applyOutcomes, applyOutcome, applyAnswer, applySkip, default_record,
    REWARD_CORRECT, REWARD_STREAK, REWARD_TIME, PENALTY_SKIP, MIN_WEIGHT,
    MAX_WEIGHT, max_def, min_def]

lemma avgTimeOk_applyAnswer (b : Bool) (e : ℚ) (r : PRecord) :
    ((applyAnswer b e r).attempts = 0 → (applyAnswer b e r).avg_time = 0) ∧
    (0 < (applyAnswer b e r).attempts →
      (applyAnswer b e r).avg_time =
        (applyAnswer b e r).total_time / ((applyAnswer b e r).attempts : ℚ)) := by
  cases b <;> simp [applyAnswer]

lemma avgTimeOk_applyOutcomes (os : List Outcome) (r : PRecord)
    (h0 : r.attempts = 0 → r.avg_time = 0)
    (h1 : 0 < r.attempts → r.avg_time = r.total_time / (r.attempts : ℚ))
    (hns : ∀ o ∈ os, o.isSkip = false) :
    ((applyOutcomes r os).attempts = 0 → (applyOutcomes r os).avg_time = 0) ∧
    (0 < (applyOutcomes r os).attempts →
      (applyOutcomes r os).avg_time =
        (applyOutcomes r os).total_time / ((applyOutcomes r os).attempts : ℚ)) := by
  induction os generalizing r with
  | nil => exact ⟨h0, h1⟩
  | cons o os ih =>
    have hno : o.isSkip = false := hns o (List.mem_cons_self ..)
    have hns' : ∀ o' ∈ os, o'.isSkip = false :=
      fun o' ho' => hns o' (List.mem_cons_of_mem _ ho')
    cases o with
    | quit => exact ih r h0 h1 hns'
    | skipped e => simp [Outcome.isSkip] at hno
    | answered hinted isC e =>
      have h := avgTimeOk_applyAnswer isC e (if hinted then applyHint r else r)
      exact ih _ h.1 h.2 hns'

/-- C2 (amended): starting from a default record, after any sequence of
outcome applications that contains no Skipped outcome, `avg_time` equals
`total_time / attempts` whenever `attempts > 0` and equals 0 when
`attempts = 0`. (A Skipped outcome increments `attempts` without touching
`total_time` or `avg_time`, so the unrestricted claim fails.) -/
theorem avg_time_invariant_noskip (w : String) (os : List Outcome)
    (hns : ∀ o ∈ os, o.isSkip = false) :
    ((applyOutcomes (default_record w) os).attempts = 0 →
      (applyOutcomes (default_record w) os).avg_time = 0) ∧
    (0 < (applyOutcomes (default_record w) os).attempts →
      (applyOutcomes (default_record w) os).avg_time =
        (applyOutcomes (default_record w) os).total_time /
          ((applyOutcomes (default_record w) os).attempts : ℚ)) :=
  avgTimeOk_applyOutcomes os (default_record w) (fun _ => rfl)
    (fun h => absurd h (by simp [default_record])) hns

/-- Witness for C2 (amended) at the sequence `[Correct, elapsed 2]`. -/
theorem avg_time_invariant_noskip_witness :
    ((applyOutcomes (default_record "a") [Outcome.answered false true 2]).attempts = 0 →
      (applyOutcomes (default_record "a") [Outcome.answered false true 2]).avg_time = 0) ∧
    (0 < (applyOutcomes (default_record "a") [Outcome.answered false true 2]).attempts →
      (applyOutcomes (default_record "a") [Outcome.answered false true 2]).avg_time =
        (applyOutcomes (default_record "a") [Outcome.answered false true 2]).total_time /
          ((applyOutcomes (default_record "a") [Outcome.answered false true 2]).attempts : ℚ)) :=
  avg_time_invariant_noskip "a" [Outcome.answered false true 2] (by decide)

/-! ### C3 -/

lemma weight_bounds_step (o : Outcome) (r : PRecord)
    (h1 : MIN_WEIGHT ≤ r.weight) (h2 : r.weight ≤ MAX_WEIGHT) :
    MIN_WEIGHT ≤ (applyOutcome r o).weight ∧
      (applyOutcome r o).weight ≤ MAX_WEIGHT := by
  have hmm : MIN_WEIGHT ≤ MAX_WEIGHT := by norm_num [MIN_WEIGHT, MAX_WEIGHT]
  cases o with
  | quit => exact ⟨h1, h2⟩
  | skipped e =>
    show MIN_WEIGHT ≤ (applySkip r).weight ∧ (applySkip r).weight ≤ MAX_WEIGHT
    rw [applySkip_weight]
    have hp : (0:ℚ) ≤ PENALTY_SKIP := by norm_num [PENALTY_SKIP]
    exact ⟨le_min hmm (by linarith), min_le_left _ _⟩
  | answered hinted isC e =>
    show MIN_WEIGHT ≤ (applyAnswer isC e (if hinted then applyHint r else r)).weight ∧
      (applyAnswer isC e (if hinted then applyHint r else r)).weight ≤ MAX_WEIGHT
    have hb1 : MIN_WEIGHT ≤ (if hinted then applyHint r else r).weight ∧
        (if hinted then applyHint r else r).weight ≤ MAX_WEIGHT := by
      cases hinted
      · exact ⟨h1, h2⟩
      · simp only [if_pos]
        rw [applyHint_weight]
        have hp : (0:ℚ) ≤ PENALTY_HINT := by norm_num [PENALTY_HINT]
        exact ⟨le_min hmm (by linarith), min_le_left _ _⟩
    set r1 := if hinted then applyHint r else r
    cases isC
    · rw [applyAnswer_weight_false]
      have hp : (0:ℚ) ≤ PENALTY_INCORRECT := by norm_num [PENALTY_INCORRECT]
      exact ⟨le_min hmm (by linarith [hb1.1]), min_le_left _ _⟩
    · rw [applyAnswer_weight_true]
      refine ⟨le_max_left _ _, max_le hmm ?_⟩
      have hcast : (0:ℚ) ≤ ((r1.streak + 1 : ℕ) : ℚ) := by positivity
      have hbase : (0:ℚ) ≤
          REWARD_CORRECT + REWARD_STREAK * ((r1.streak + 1 : ℕ) : ℚ) := by
        norm_num [REWARD_CORRECT, REWARD_STREAK]
        linarith
      have ht : (0:ℚ) ≤ REWARD_TIME := by norm_num [REWARD_TIME]
      split_ifs <;> linarith [hb1.2]

/-- C3: for every record with `MIN_WEIGHT ≤ weight ≤ MAX_WEIGHT`, after any
sequence of outcome applications (Correct, Incorrect, Skipped, Quit, with or
without Hinted sub-steps) the weight still satisfies
`MIN_WEIGHT ≤ weight ≤ MAX_WEIGHT`. -/
theorem weight_bounds_invariant (os : List Outcome) (r : PRecord)
    (h1 : MIN_WEIGHT ≤ r.weight) (h2 : r.weight ≤ MAX_WEIGHT) :
    MIN_WEIGHT ≤ (applyOutcomes r os).weight ∧
      (applyOutcomes r os).weight ≤ MAX_WEIGHT := by
  induction os generalizing r with
  | nil => exact ⟨h1, h2⟩
  | cons o os ih =>
    have hstep := weight_bounds_step o r h1 h2
    exact ih (applyOutcome r o) hstep.1 hstep.2

/-- Witness for C3 at a default record and a hinted-incorrect then skipped
sequence. -/
theorem weight_bounds_invariant_witness :
    MIN_WEIGHT ≤ (applyOutcomes (default_record "a")
        [Outcome.answered true false 1, Outcome.skipped 2]).weight ∧
      (applyOutcomes (default_record "a")
        [Outcome.answered true false 1, Outcome.skipped 2]).weight ≤ MAX_WEIGHT :=
  weight_bounds_invariant [Outcome.answered true false 1, Outcome.skipped 2]
    (default_record "a") (by norm_num [default_record, MIN_WEIGHT, MAX_WEIGHT])
    (by norm_num [default_record, MAX_WEIGHT])

/-! ### C4 -/

/-- C4: the Correct outcome increments streak, attempts and correct, adds
the elapsed time to `total_time`, subtracts from the weight (clamped at
`MIN_WEIGHT`) the reward
`REWARD_CORRECT + REWARD_STREAK * (streak + 1)` plus `REWARD_TIME` exactly
when the pre-update `avg_time` is positive and the elapsed time beats it,
and only afterwards recomputes `avg_time = total_time / attempts`; on a
default record with elapsed 2 this gives
`{weight = 8.75, streak = 1, attempts = 1, correct = 1, total_time = 2,
avg_time = 2}`. -/
theorem correct_update (r : PRecord) (e : ℚ) :
    applyOutcome r (Outcome.answered false true e) =
      { word := r.word,
        weight := max MIN_WEIGHT (r.weight -
          (REWARD_CORRECT + REWARD_STREAK * ((r.streak + 1 : ℕ) : ℚ) +
            (if 0 < r.avg_time ∧ e < r.avg_time then REWARD_TIME else 0))),
        streak := r.streak + 1, attempts := r.attempts + 1,
        correct := r.correct + 1, total_time := r.total_time + e,
        avg_time := (r.total_time + e) / ((r.attempts + 1 : ℕ) : ℚ) } ∧
    applyOutcome (default_record "w") (Outcome.answered false true 2) =
      ⟨"w", 35/4, 1, 1, 1, 2, 2⟩ := by
  constructor
  · by_cases hc : 0 < r.avg_time ∧ e < r.avg_time <;>
      simp [applyOutcome, applyAnswer, hc]
  · norm_num [applyOutcome, applyAnswer, default_record, REWARD_CORRECT,
      REWARD_STREAK, REWARD_TIME, MIN_WEIGHT, MAX_WEIGHT, max_def]

/-! ### Lemmas about the word-keyed dictionary lookup -/

lemma dictFold_acc (l : List PRecord) (k : String) (acc : Option PRecord)
    (h : ∀ r ∈ l, r.word ≠ k) :
    l.foldl (fun a r => if r.word = k then some r else a) acc = acc := by
  induction l generalizing acc with
  | nil => rfl
  | cons p l ih =>
    have hp : p.word ≠ k := h p (List.mem_cons_self ..)
    rw [List.foldl_cons, if_neg hp]
    exact ih acc (fun r hr => h r (List.mem_cons_of_mem _ hr))

lemma dictFold_spec (l : List PRecord) (k : String) (acc : Option PRecord) :
    l.foldl (fun a r => if r.word = k then some r else a) acc = acc ∨
    ∃ r, l.foldl (fun a r => if r.word = k then some r else a) acc = some r ∧
      r ∈ l ∧ r.word = k := by
  induction l generalizing acc with
  | nil => exact Or.inl rfl
  | cons p l ih =>
    rw [List.foldl_cons]
    rcases ih (if p.word = k then some p else acc) with h | ⟨r, hr, hm, hk⟩
    · by_cases hp : p.word = k
      · exact Or.inr ⟨p, by rw [h, if_pos hp], List.mem_cons_self .., hp⟩
      · exact Or.inl (by rw [h, if_neg hp])
    · exact Or.inr ⟨r, hr, List.mem_cons_of_mem _ hm, hk⟩

lemma dictLookup_some {l : List PRecord} {k : String} {r : PRecord}
    (h : dictLookup l k = some r) : r ∈ l ∧ r.word = k := by
  rcases dictFold_spec l k none with h' | ⟨r', hr', hm, hk⟩
  · rw [dictLookup, h'] at h
    exact absurd h (by simp)
  · rw [dictLookup, hr'] at h
    injection h with h
    subst h
    exact ⟨hm, hk⟩

lemma dictLookup_none {l : List PRecord} {k : String}
    (h : ∀ r ∈ l, r.word ≠ k) : dictLookup l k = none :=
  dictFold_acc l k none h

lemma dictLookup_cons_of_ne (p : PRecord) (l : List PRecord) (k : String)
    (h : p.word ≠ k) : dictLookup (p :: l) k = dictLookup l k := by
  simp only [dictLookup, List.foldl_cons, if_neg h]

lemma dictLookup_cons_self (p : PRecord) (l : List PRecord)
    (h : ∀ r ∈ l, r.word ≠ p.word) : dictLookup (p :: l) p.word = some p := by
  simp only [dictLookup, List.foldl_cons, if_pos rfl]
  exact dictFold_acc l p.word (some p) h

/-! ### C5 -/

/-- C5: the merge produces one record per current vocabulary item in list
order (same length, position by position); at each position, a prior record
whose word matches the item's key is adopted unchanged, and when no prior
record has that key the position gets the default record
`{weight=10, streak=0, attempts=0, correct=0, total_time=0, avg_time=0}`;
a missing or unparseable prior store yields the all-defaults list. Prior
records whose word matches no current item are dropped (the output is
exactly the per-item list). -/
theorem merge_policy (data : List VocabItem) (old : List PRecord) (i : ℕ)
    (w : VocabItem) (hw : data[i]? = some w) :
    (load_progress data (some old)).length = data.length ∧
    load_progress data none = get_default_progress data ∧
    (∀ r, dictLookup old (w.simplified.getD "N/A") = some r →
      r ∈ old ∧ r.word = w.simplified.getD "N/A" ∧
      (load_progress data (some old))[i]? = some r) ∧
    (dictLookup old (w.simplified.getD "N/A") = none →
      (load_progress data (some old))[i]? =
        some (default_record (w.simplified.getD "N/A"))) ∧
    ((∀ r ∈ old, r.word ≠ w.simplified.getD "N/A") →
      dictLookup old (w.simplified.getD "N/A") = none) ∧
    default_record (w.simplified.getD "N/A") =
      ⟨w.simplified.getD "N/A", 10, 0, 0, 0, 0, 0⟩ := by
  have hmap : (load_progress data (some old))[i]? =
      Option.map (fun w : VocabItem =>
        match dictLookup old (w.simplified.getD "N/A") with
        | some r => r
        | none => default_record (w.simplified.getD "N/A")) data[i]? := by
    simp only [load_progress, List.getElem?_map]
  refine ⟨by simp [load_progress], rfl, ?_, ?_, dictLookup_none, ?_⟩
  · intro r hr
    obtain ⟨hm, hk⟩ := dictLookup_some hr
    refine ⟨hm, hk, ?_⟩
    rw [hmap, hw]
    simp [hr]
  · intro hn
    rw [hmap, hw]
    simp [hn]
  · norm_num [default_record, MAX_WEIGHT]

/-- Witness for C5 on a one-item list with a matching prior record. -/
theorem merge_policy_witness :
    (load_progress [⟨some "a", PinyinField.missing, some "x"⟩]
        (some [⟨"a", 4, 1, 2, 1, 6, 3⟩])).length =
      ([⟨some "a", PinyinField.missing, some "x"⟩] : List VocabItem).length ∧
    load_progress [⟨some "a", PinyinField.missing, some "x"⟩] none =
      get_default_progress [⟨some "a", PinyinField.missing, some "x"⟩] ∧
    (∀ r, dictLookup [⟨"a", 4, 1, 2, 1, 6, 3⟩]
        ((⟨some "a", PinyinField.missing, some "x"⟩ : VocabItem).simplified.getD "N/A") = some r →
      r ∈ [(⟨"a", 4, 1, 2, 1, 6, 3⟩ : PRecord)] ∧
      r.word = (⟨some "a", PinyinField.missing, some "x"⟩ : VocabItem).simplified.getD "N/A" ∧
      (load_progress [⟨some "a", PinyinField.missing, some "x"⟩]
        (some [⟨"a", 4, 1, 2, 1, 6, 3⟩]))[0]? = some r) ∧
    (dictLookup [⟨"a", 4, 1, 2, 1, 6, 3⟩]
        ((⟨some "a", PinyinField.missing, some "x"⟩ : VocabItem).simplified.getD "N/A") = none →
      (load_progress [⟨some "a", PinyinField.missing, some "x"⟩]
        (some [⟨"a", 4, 1, 2, 1, 6, 3⟩]))[0]? =
        some (default_record
          ((⟨some "a", PinyinField.missing, some "x"⟩ : VocabItem).simplified.getD "N/A"))) ∧
    ((∀ r ∈ [(⟨"a", 4, 1, 2, 1, 6, 3⟩ : PRecord)],
        r.word ≠ (⟨some "a", PinyinField.missing, some "x"⟩ : VocabItem).simplified.getD "N/A") →
      dictLookup [⟨"a", 4, 1, 2, 1, 6, 3⟩]
        ((⟨some "a", PinyinField.missing, some "x"⟩ : VocabItem).simplified.getD "N/A") = none) ∧
    default_record ((⟨some "a", PinyinField.missing, some "x"⟩ : VocabItem).simplified.getD "N/A") =
      ⟨(⟨some "a", PinyinField.missing, some "x"⟩ : VocabItem).simplified.getD "N/A",
        10, 0, 0, 0, 0, 0⟩ :=
  merge_policy [⟨some "a", PinyinField.missing, some "x"⟩]
    [⟨"a", 4, 1, 2, 1, 6, 3⟩] 0 ⟨some "a", PinyinField.missing, some "x"⟩ rfl

/-! ### C7 -/

lemma forall₂_exists_mem {R : VocabItem → PRecord → Prop}
    {l₁ : List VocabItem} {l₂ : List PRecord} (h : List.Forall₂ R l₁ l₂) :
    ∀ a ∈ l₁, ∃ b ∈ l₂, R a b := by
  induction h with
  | nil => intro a ha; exact absurd ha (List.not_mem_nil a)
  | cons hab htail ih =>
    intro a ha
    rcases List.mem_cons.1 ha with h' | h'
    · subst h'
      exact ⟨_, List.mem_cons_self .., hab⟩
    · rcases ih a h' with ⟨b, hb, hR⟩
      exact ⟨b, List.mem_cons_of_mem _ hb, hR⟩

/-- C7: saving a ProgressSet and loading it back against the same
vocabulary list reproduces it field for field, provided the set is valid
for that list: index-aligned by word key, with distinct word keys. -/
theorem save_load_roundtrip (data : List VocabItem) (ps : List PRecord)
    (halign : List.Forall₂ (fun w r => r.word = w.simplified.getD "N/A") data ps)
    (hnodup : (ps.map (fun r => r.word)).Nodup) :
    load_progress data (save_progress ps) = ps := by
  induction data generalizing ps with
  | nil =>
    rcases List.forall₂_nil_left_iff.1 halign with rfl
    rfl
  | cons d data' ih =>
    rcases List.forall₂_cons_left_iff.1 halign with ⟨p, ps', hR, htail, rfl⟩
    rw [List.map_cons, List.nodup_cons] at hnodup
    obtain ⟨hpw, hnd'⟩ := hnodup
    have htne : ∀ r ∈ ps', r.word ≠ p.word := by
      intro r hr heq
      exact hpw (heq ▸ List.mem_map_of_mem (fun r => r.word) hr)
    have hhead : dictLookup (p :: ps') (d.simplified.getD "N/A") = some p := by
      rw [← hR]
      exact dictLookup_cons_self p ps' htne
    have htail_eq : ∀ w ∈ data',
        dictLookup (p :: ps') (w.simplified.getD "N/A") =
          dictLookup ps' (w.simplified.getD "N/A") := by
      intro w hw
      obtain ⟨r, hr, hRw⟩ := forall₂_exists_mem htail w hw
      apply dictLookup_cons_of_ne
      intro heq
      apply hpw
      rw [heq, ← hRw]
      exact List.mem_map_of_mem _ hr
    have ih' := ih ps' htail hnd'
    simp only [load_progress, save_progress, List.map_cons] at ih' ⊢
    rw [hhead]
    refine congrArg₂ _ rfl ?_
    exact Eq.trans (List.map_congr_left (fun w hw => by rw [htail_eq w hw])) ih'

/-- Witness for C7 on a two-item list with non-ASCII word keys. -/
theorem save_load_roundtrip_witness :
    load_progress
      [⟨some "你", PinyinField.str "ni", some "you"⟩,
       ⟨some "好", PinyinField.str "hao", some "good"⟩]
      (save_progress [⟨"你", 4, 1, 2, 1, 6, 3⟩, ⟨"好", 10, 0, 0, 0, 0, 0⟩]) =
      [⟨"你", 4, 1, 2, 1, 6, 3⟩, ⟨"好", 10, 0, 0, 0, 0, 0⟩] :=
  save_load_roundtrip _ _
    (List.Forall₂.cons rfl (List.Forall₂.cons rfl List.Forall₂.nil))
    (by decide)

/-! ### C8 -/

/-- C8: weighted-random selection on a corpus of size 0 fails with the
`EmptyCorpus` error rather than returning an index; with any progress list
of the wrong shape it still fails with an error, never with an index. -/
theorem empty_corpus_error (cursor : ℕ) (r : ℚ) :
    get_next_index 0 [] true cursor r =
      Except.error SelectError.emptyCorpus ∧
    ∀ progress : List PRecord, ∃ e,
      get_next_index 0 progress true cursor r = Except.error e := by
  constructor
  · rfl
  · intro progress
    cases progress with
    | nil => exact ⟨SelectError.emptyCorpus, rfl⟩
    | cons p ps =>
      refine ⟨SelectError.weightMismatch, ?_⟩
      simp [get_next_index, choicesIdx, List.length_tail, List.length_scanl,
        Except.map]

/-! ### Substring containment agrees with List.IsInfix -/

lemma startsWithChars_iff : ∀ (n h : List Char),
    startsWithChars n h = true ↔ n <+: h
  | [], h => by simp [startsWithChars]
  | a :: as, [] => by simp [startsWithChars]
  | a :: as, b :: bs => by
    simp [startsWithChars, List.cons_prefix_cons, startsWithChars_iff as bs,
      Bool.and_eq_true, beq_iff_eq]

lemma substrOf_iff (n : List Char) : ∀ (h : List Char),
    substrOf n h = true ↔ n <:+: h
  | [] => by
    simp [substrOf, startsWithChars_iff, List.prefix_nil, List.infix_nil]
  | b :: bs => by
    simp [substrOf, Bool.or_eq_true, startsWithChars_iff, substrOf_iff n bs,
      List.infix_cons_iff]

/-! ### C6 -/

/-- C6: answer checking is direction-asymmetric. In the
Chinese-to-English direction the input is correct exactly when it equals
one of the two accepted normalized forms (the lowered simplified form or
the processed pinyin form); in the reverse direction it is correct exactly
when it is a contiguous substring of the single accepted lowered concise
translation. -/
theorem check_answer_asymmetry (item : VocabItem) (inpt p : String)
    (hp : pinyinAnswer item.pinyin = some p) :
    (check_answer true inpt ((quizAnswers true item).getD []) = true ↔
      inpt = lowerStr (item.simplified.getD "") ∨ inpt = p) ∧
    (check_answer false inpt ((quizAnswers false item).getD []) = true ↔
      inpt.data <:+: (lowerStr (item.english_concise.getD "N/A")).data) := by
  constructor
  · simp [quizAnswers, hp, check_answer, List.contains_eq_any_beq]
  · simp [quizAnswers, check_answer, substrOf_iff]

/-- Witness for C6 at a concrete item and input. -/
theorem check_answer_asymmetry_witness :
    (check_answer true "ni"
        ((quizAnswers true ⟨some "ni", PinyinField.str "ni", some "you"⟩).getD []) = true ↔
      "ni" = lowerStr ((some "ni" : Option String).getD "") ∨ "ni" = "ni") ∧
    (check_answer false "ni"
        ((quizAnswers false ⟨some "ni", PinyinField.str "ni", some "you"⟩).getD []) = true ↔
      "ni".data <:+: (lowerStr ((some "you" : Option String).getD "N/A")).data) :=
  check_answer_asymmetry ⟨some "ni", PinyinField.str "ni", some "you"⟩ "ni" "ni" rfl

/-! ### C9 -/

/-- C9: in the English-to-Chinese direction an input that is empty after
trimming is always graded Correct: it is not one of the command strings,
and the empty string is a substring of every concise translation. -/
theorem empty_input_reverse_correct (item : VocabItem) (i2 : String)
    (r : PRecord) (e1 e2 : ℚ) :
    (run_quiz_turn false item "" i2 r e1 e2).map Prod.fst =
      some TurnResult.correct ∧
    check_answer false "" ((quizAnswers false item).getD []) = true := by
  have hsub : ∀ s : String, substrOf ("" : String).data s.data = true :=
    fun s => (substrOf_iff _ _).2 List.nil_infix
  have hc : check_answer false ""
      [lowerStr (item.english_concise.getD "N/A")] = true :=
    hsub (lowerStr (item.english_concise.getD "N/A"))
  refine ⟨?_, hc⟩
  simp +decide [run_quiz_turn, quizAnswers, gradeAnswer, hc]

/-! ### C10 -/

/-- C10: once a hint has been taken, the turn always ends Correct or
Incorrect — never Skipped or Quit — because the command strings are only
tested against the first input; the post-hint input goes straight to
answer grading. -/
theorem hinted_turn_only_answers (c2e : Bool) (item : VocabItem)
    (i2 : String) (r : PRecord) (e1 e2 : ℚ) (res : TurnResult) (r' : PRecord)
    (h : run_quiz_turn c2e item "-h" i2 r e1 e2 = some (res, r')) :
    res = TurnResult.correct ∨ res = TurnResult.incorrect := by
  rcases hq : quizAnswers c2e item with _ | ans
  · rw [run_quiz_turn, hq] at h
    exact absurd h (by simp)
  · rw [run_quiz_turn, hq] at h
    simp +decide at h
    by_cases hck : check_answer c2e i2 ans = true
    · rw [gradeAnswer, if_pos hck] at h
      exact Or.inl (congrArg Prod.fst h.symm)
    · rw [gradeAnswer, if_neg hck] at h
      exact Or.inr (congrArg Prod.fst h.symm)

/-- Witness for C10: after a hint, the input `-s` is graded as answer text
(here: incorrect) rather than acting as the skip command. -/
theorem hinted_turn_only_answers_witness :
    TurnResult.incorrect = TurnResult.correct ∨
      TurnResult.incorrect = TurnResult.incorrect :=
  hinted_turn_only_answers false ⟨some "a", PinyinField.missing, some "b"⟩ "-s"
    (default_record "a") 1 1 TurnResult.incorrect ⟨"a", 10, 0, 1, 0, 2, 2⟩
    (by norm_num [run_quiz_turn, quizAnswers, gradeAnswer, check_answer,
        applyAnswer, applyHint, default_record, lowerStr, substrOf,
        startsWithChars, PENALTY_HINT, PENALTY_INCORRECT, MAX_WEIGHT, min_def]
        ; simp +decide)
